import Mathlib

/-!
# Connection pools of `connpool.go` and the tracing hook of `redisotel.go`

A shallow embedding of `Conn`, `MultiConnPool`, `SingleConnPool` and their
methods, and of the `After...` methods of `TracingHook`, followed by the
properties established about them.

Modelling conventions.

* A `*Conn` is an `Option Conn`; `none` is the nil pointer.  A connection is
  identified by its contents, i.e. by the stream handle it wraps.
* The mutable pool is passed explicitly: every method takes the pool and the
  environment and returns the updated ones.
* The environment `Env` records what the pool does to the outside world: how
  often the open callback has been invoked, and the sequence of lock,
  condition-variable and callback events in program order.
* All mutations of a method happen while it holds the pool lock, so a method
  call is one atomic transition.  A `Get` that finds its loop condition true
  parks in `cond.Wait()`; this is the result `none`, with the pool unchanged.
  When it is woken it holds the lock again and re-checks the loop condition on
  the pool as it then is, which is a further `Get` transition.
* `cap` and `MaxCap` are `int64` in the source and are carried as `Int`.
  `cap++` only runs under `cap < MaxCap`, and `cap--` moves one unit per
  `Remove` call, so the counter cannot leave the `int64` range in fewer than
  `2^63` calls (`cap_within_int64`); the development reasons below that
  horizon.
-/

namespace Redis

/-- Identity of an `io.ReadWriter` value, the raw stream handle. -/
abbrev Handle := Nat

/-- Go `error` values; the nil error is `none : Option Error`. -/
abbrev Error := String

/-- The `bufio.Reader` produced by `bufio.NewReaderSize(rw, size)`. -/
structure Reader where
  src : Handle
  size : Nat
deriving DecidableEq, Repr

/-- The struct `Conn`. -/
structure Conn where
  RW : Handle
  Rd : Reader
deriving DecidableEq, Repr

/-- The constructor `NewConn`. -/
def NewConn (rw : Handle) : Conn :=
  { RW := rw, Rd := { src := rw, size := 1024 } }

/-- Modelled from the spec: the declaration of `OpenConnFunc` is not among the
sources.  It is "a supplied operation with no inputs that returns a new
bidirectional byte-stream handle or an error".  The callback is stateful, so it
is given as the script of its results: `f k` is what the invocation number `k`
(counting from zero) returns, as the Go pair `(rw, err)`. -/
abbrev OpenConnFunc := Nat → Handle × Option Error

/-- Modelled from the spec: the declaration of `CloseConnFunc` is not among the
sources.  It is "a supplied operation taking a byte-stream handle, with no
required return value observed by the pool". -/
abbrev CloseConnFunc := Handle → Option Error

/-- What a pool method does to its surroundings, in program order. -/
inductive Event where
  | lock
  | unlock
  | wait
  | signal
  | openConn
  | closeConn (rw : Handle)
deriving DecidableEq, Repr

/-- The environment of a pool: the number of invocations of the open callback
so far, and the events emitted so far. -/
structure Env where
  opens : Nat
  events : List Event
deriving DecidableEq, Repr

/-- Append one event to the log. -/
def Env.emit (e : Env) (ev : Event) : Env :=
  { e with events := e.events ++ [ev] }

/-- The struct `MultiConnPool` (the logger plays no part in any method). -/
structure MultiConnPool where
  conns : List (Option Conn)
  OpenConn : OpenConnFunc
  CloseConn : Option CloseConnFunc
  cap : Int
  MaxCap : Int

/-- The constructor `NewMultiConnPool`. -/
def NewMultiConnPool (openConn : OpenConnFunc) (closeConn : Option CloseConnFunc)
    (maxCap : Int) : MultiConnPool :=
  { conns := [], OpenConn := openConn, CloseConn := closeConn, cap := 0, MaxCap := maxCap }

/-- The three values returned by `Get`. -/
structure GetResult where
  conn : Option Conn
  isNew : Bool
  err : Option Error
deriving DecidableEq, Repr

/-- Outcome of a call of `Get`: `ret = none` when the caller is parked in
`cond.Wait()`, otherwise the returned triple; with the pool and environment
the call leaves behind. -/
structure GetOut where
  ret : Option GetResult
  pool : MultiConnPool
  env : Env

/-- The method `MultiConnPool.Get`. -/
def Get (p : MultiConnPool) (e : Env) : GetOut :=
  let e := e.emit Event.lock
  if p.conns.length = 0 ∧ p.cap ≥ p.MaxCap then
    { ret := none, pool := p, env := e.emit Event.wait }
  else if p.conns.length = 0 then
    let r := p.OpenConn e.opens
    let e := { e with opens := e.opens + 1 }.emit Event.openConn
    if r.2 ≠ none then
      { ret := some { conn := none, isNew := false, err := r.2 }, pool := p,
        env := e.emit Event.unlock }
    else
      { ret := some { conn := some (NewConn r.1), isNew := true, err := none },
        pool := { p with cap := p.cap + 1 },
        env := e.emit Event.unlock }
  else
    let last := p.conns.length - 1
    let conn := p.conns.getD last none
    let conns := p.conns.set last none
    { ret := some { conn := conn, isNew := false, err := none },
      pool := { p with conns := conns.take last },
      env := e.emit Event.unlock }

/-- The method `MultiConnPool.Add`. -/
def Add (p : MultiConnPool) (conn : Option Conn) (e : Env) : MultiConnPool × Env :=
  let e := e.emit Event.lock
  let p := { p with conns := p.conns ++ [conn] }
  let e := e.emit Event.signal
  (p, e.emit Event.unlock)

/-- The method `MultiConnPool.Remove`. -/
def Remove (p : MultiConnPool) (conn : Option Conn) (e : Env) : MultiConnPool × Env :=
  let e1 := e.emit Event.lock
  let q := { p with cap := p.cap - 1 }
  let e2 := e1.emit Event.signal
  let e3 := e2.emit Event.unlock
  if q.CloseConn.isSome then
    match conn with
    | some c => (q, e3.emit (Event.closeConn c.RW))
    | none => (q, e3)
  else
    (q, e3)

/-- The method `MultiConnPool.Len`. -/
def Len (p : MultiConnPool) : Int :=
  p.conns.length

/-- A call made by a client of the pool. -/
inductive Call where
  | get
  | add (conn : Option Conn)
  | remove (conn : Option Conn)
deriving DecidableEq, Repr

/-- A pool in its environment.  `held` is a ghost component: the non-nil
connections that `Get` has returned and that were not yet passed to `Add` or
`Remove` (the connections currently checked out). -/
structure Sys where
  pool : MultiConnPool
  env : Env
  held : List Conn

/-- The environment before anything happened. -/
def Env.start : Env := { opens := 0, events := [] }

/-- A pool placed in an environment, nothing checked out. -/
def Sys.start (p : MultiConnPool) (e : Env) : Sys :=
  { pool := p, env := e, held := [] }

/-- One client call.  A `Get` that parks leaves the pool as it is. -/
def step (s : Sys) : Call → Sys
  | Call.get =>
    let r := Get s.pool s.env
    { pool := r.pool, env := r.env,
      held := match r.ret with
        | some { conn := some c, .. } => c :: s.held
        | _ => s.held }
  | Call.add conn =>
    let r := Add s.pool conn s.env
    { pool := r.1, env := r.2,
      held := match conn with
        | some c => s.held.erase c
        | none => s.held }
  | Call.remove conn =>
    let r := Remove s.pool conn s.env
    { pool := r.1, env := r.2,
      held := match conn with
        | some c => s.held.erase c
        | none => s.held }

/-- A finite sequence of client calls, applied from left to right. -/
def run (s : Sys) : List Call → Sys
  | [] => s
  | c :: cs => run (step s c) cs

/-- The calls `cs` made from `s` never issue a `Remove` while the outstanding
count is zero or less. -/
def RemoveCovered (s : Sys) : List Call → Prop
  | [] => True
  | Call.remove conn :: cs => 0 < s.pool.cap ∧ RemoveCovered (step s (Call.remove conn)) cs
  | c :: cs => RemoveCovered (step s c) cs

/-- The calls `cs` made from `s` pass to `Add` and `Remove` only connections
that are checked out at that moment. -/
def Disciplined (s : Sys) : List Call → Prop
  | [] => True
  | Call.get :: cs => Disciplined (step s Call.get) cs
  | Call.add conn :: cs =>
    (∃ c, conn = some c ∧ c ∈ s.held) ∧ Disciplined (step s (Call.add conn)) cs
  | Call.remove conn :: cs =>
    (∃ c, conn = some c ∧ c ∈ s.held) ∧ Disciplined (step s (Call.remove conn)) cs

/-- The open callback never hands out the same handle twice. -/
def FreshHandles (f : OpenConnFunc) : Prop :=
  ∀ i j, (f i).2 = none → (f j).2 = none → (f i).1 = (f j).1 → i = j

/-- Every connection that is idle or checked out was made by `Get` from a
successful invocation of the open callback `f`, and no connection is idle twice,
checked out twice, or both idle and checked out. -/
def Owned (f : OpenConnFunc) (s : Sys) : Prop :=
  (s.pool.conns ++ s.held.map some).Nodup ∧
  ∀ x ∈ s.pool.conns ++ s.held.map some,
    ∃ k, k < s.env.opens ∧ (f k).2 = none ∧ x = some (NewConn (f k).1)

/-- A fresh pool of capacity limit `N` after `N` calls of `Get`. -/
def afterGets (N : Nat) (openConn : OpenConnFunc) (closeConn : Option CloseConnFunc)
    (e : Env) : Sys :=
  run (Sys.start (NewMultiConnPool openConn closeConn N) e) (List.replicate N Call.get)

/-- An open callback that always succeeds, handing out handle `k` at invocation `k`. -/
def dialOk : OpenConnFunc := fun k => (k, none)

/-- An open callback that always fails. -/
def dialErr : OpenConnFunc := fun _ => (0, some "dial tcp: connection refused")

/-- A close callback. -/
def hangUp : CloseConnFunc := fun _ => none

/-- A pool over its capacity limit with two idle connections. -/
def warmPool : MultiConnPool :=
  { conns := [some (NewConn 7), some (NewConn 9)], OpenConn := dialErr, CloseConn := none,
    cap := 5, MaxCap := 2 }

/-- A call of `Len` in the state-passing style of the other methods: the body
only reads `conns`; it takes no lock and writes nothing. -/
def LenCall (p : MultiConnPool) (e : Env) : Int × MultiConnPool × Env :=
  (Len p, p, e)

/-- What a single call must satisfy to follow the ownership discipline: `Add`
and `Remove` receive a connection that is checked out. -/
def CallOk (s : Sys) : Call → Prop
  | Call.get => True
  | Call.add conn => ∃ c, conn = some c ∧ c ∈ s.held
  | Call.remove conn => ∃ c, conn = some c ∧ c ∈ s.held

/-- The accounts of a pool: the idle stack holds no nil, and the outstanding
count is the number of idle connections plus the number checked out. -/
def Balanced (s : Sys) : Prop :=
  none ∉ s.pool.conns ∧ s.pool.cap = (s.pool.conns.length : Int) + (s.held.length : Int)

/-- Scan a sequence of events, `held` telling whether the pool lock is held at
its start: `true` when every invocation of the open or the close callback in it
happens while the lock is not held.  `cond.Wait()` gives the lock up. -/
def ioOutsideLock : Bool → List Event → Bool
  | _, [] => true
  | _, Event.lock :: evs => ioOutsideLock true evs
  | _, Event.unlock :: evs => ioOutsideLock false evs
  | _, Event.wait :: evs => ioOutsideLock false evs
  | held, Event.signal :: evs => ioOutsideLock held evs
  | held, Event.openConn :: evs => !held && ioOutsideLock held evs
  | held, Event.closeConn _ :: evs => !held && ioOutsideLock held evs

/-- The struct `SingleConnPool`. -/
structure SingleConnPool where
  conn : Option Conn
deriving DecidableEq, Repr

/-- The constructor `NewSingleConnPool`. -/
def NewSingleConnPool (conn : Option Conn) : SingleConnPool :=
  { conn := conn }

/-- The method `SingleConnPool.Get`. -/
def SingleConnPool.Get (p : SingleConnPool) (e : Env) : GetResult × SingleConnPool × Env :=
  ({ conn := p.conn, isNew := false, err := none }, p, e)

/-- The method `SingleConnPool.Add`, whose body is empty. -/
def SingleConnPool.Add (p : SingleConnPool) (_conn : Option Conn) (e : Env) :
    SingleConnPool × Env :=
  (p, e)

/-- The method `SingleConnPool.Remove`, whose body is empty. -/
def SingleConnPool.Remove (p : SingleConnPool) (_conn : Option Conn) (e : Env) :
    SingleConnPool × Env :=
  (p, e)

/-- The method `SingleConnPool.Len`. -/
def SingleConnPool.Len (_p : SingleConnPool) : Int :=
  1

/-- A call of one of the four methods of the interface `ConnPool`. -/
inductive PoolCall where
  | get
  | add (conn : Option Conn)
  | remove (conn : Option Conn)
  | len
deriving DecidableEq, Repr

/-- What a call of a `ConnPool` method hands back to its caller. -/
inductive PoolRet where
  | got (r : GetResult)
  | done
  | size (n : Int)
deriving DecidableEq, Repr

/-- One call on a `SingleConnPool`: what it returns, and the pool and the
environment it leaves. -/
def SingleConnPool.call (p : SingleConnPool) (e : Env) :
    PoolCall → PoolRet × SingleConnPool × Env
  | PoolCall.get => (PoolRet.got (p.Get e).1, (p.Get e).2.1, (p.Get e).2.2)
  | PoolCall.add conn => (PoolRet.done, (p.Add conn e).1, (p.Add conn e).2)
  | PoolCall.remove conn => (PoolRet.done, (p.Remove conn e).1, (p.Remove conn e).2)
  | PoolCall.len => (PoolRet.size p.Len, p, e)

/-- A finite sequence of calls on a `SingleConnPool`, from left to right: the
values returned, in order, and the pool and the environment at the end. -/
def SingleConnPool.run (p : SingleConnPool) (e : Env) :
    List PoolCall → List PoolRet × SingleConnPool × Env
  | [] => ([], p, e)
  | c :: cs =>
    let r := p.call e c
    let rest := SingleConnPool.run r.2.1 r.2.2 cs
    (r.1 :: rest.1, rest.2.1, rest.2.2)

/-! ### The tracing hook of `redisotel.go` -/

/-- The status codes of the tracing library (`codes.Unset`, `codes.Error`,
`codes.Ok`). -/
inductive Code where
  | Unset
  | Error
  | Ok
deriving DecidableEq, Repr

/-- The operations the hook applies to a span after a command was processed. -/
inductive SpanOp where
  | RecordError (err : Error)
  | SetStatus (code : Code) (description : String)
  | End
deriving DecidableEq, Repr

/-- A span (the one found in the context by `trace.SpanFromContext(ctx)`), as
the sequence of operations applied to it so far. -/
abbrev Span := List SpanOp

/-- Modelled from the spec: the interface `redis.Cmder` is declared outside the
sources; it is "an opaque command descriptor" with its outcome, "success or
error".  Of a command the hook reads `Err()` after processing. -/
structure Cmder where
  Err : Option Error
deriving DecidableEq, Repr

/-- The function `recordError`.  The sentinel `redis.Nil` is declared outside
the sources and is taken as the parameter `Nil`; `err.Error()` is the error
itself. -/
def recordError (Nil : Error) (span : Span) (err : Error) : Span :=
  if err ≠ Nil then
    span ++ [SpanOp.RecordError err, SpanOp.SetStatus Code.Error err]
  else
    span

/-- The method `TracingHook.AfterProcess`: the span it leaves and the error it
returns. -/
def AfterProcess (Nil : Error) (span : Span) (cmd : Cmder) : Span × Option Error :=
  let span1 := match cmd.Err with
    | some err => recordError Nil span err
    | none => span
  (span1 ++ [SpanOp.End], none)

/-- The method `TracingHook.AfterProcessPipeline`; `none` is the run-time panic
of `cmds[0]` on an empty slice. -/
def AfterProcessPipeline (Nil : Error) (span : Span) (cmds : List Cmder) :
    Option (Span × Option Error) :=
  match cmds with
  | [] => none
  | cmd :: _ =>
    let span1 := match cmd.Err with
      | some err => recordError Nil span err
      | none => span
    some (span1 ++ [SpanOp.End], none)

/-- The operations a hook call added to the span it was given. -/
def added (before after : Span) : List SpanOp :=
  after.drop before.length

/-! ## The methods, case by case -/

theorem getD_top {α : Type} (l : List α) (b d : α) :
    (l ++ [b]).getD ((l ++ [b]).length - 1) d = b := by
  simp

theorem take_set_top {α : Type} (l : List α) (b x : α) :
    ((l ++ [b]).set ((l ++ [b]).length - 1) x).take ((l ++ [b]).length - 1) = l := by
  simp [List.set_take]

theorem Get_parked (p : MultiConnPool) (e : Env) (h1 : p.conns = []) (h2 : p.MaxCap ≤ p.cap) :
    Get p e = { ret := none, pool := p,
                env := { opens := e.opens, events := e.events ++ [Event.lock, Event.wait] } } := by
  simp [Get, h1, h2, Env.emit]

theorem Get_failed (p : MultiConnPool) (e : Env) (h1 : p.conns = []) (h2 : p.cap < p.MaxCap)
    (h3 : (p.OpenConn e.opens).2 ≠ none) :
    Get p e = { ret := some { conn := none, isNew := false, err := (p.OpenConn e.opens).2 },
                pool := p,
                env := { opens := e.opens + 1,
                         events := e.events ++ [Event.lock, Event.openConn, Event.unlock] } } := by
  simp [Get, h1, h2, h3, Env.emit]

theorem Get_opened (p : MultiConnPool) (e : Env) (h1 : p.conns = []) (h2 : p.cap < p.MaxCap)
    (h3 : (p.OpenConn e.opens).2 = none) :
    Get p e = { ret := some { conn := some (NewConn (p.OpenConn e.opens).1), isNew := true,
                              err := none },
                pool := { p with cap := p.cap + 1 },
                env := { opens := e.opens + 1,
                         events := e.events ++ [Event.lock, Event.openConn, Event.unlock] } } := by
  simp [Get, h1, h2, h3, Env.emit]

theorem Get_popped (p : MultiConnPool) (e : Env) (l : List (Option Conn)) (c : Option Conn)
    (h : p.conns = l ++ [c]) :
    Get p e = { ret := some { conn := c, isNew := false, err := none },
                pool := { p with conns := l },
                env := { opens := e.opens,
                         events := e.events ++ [Event.lock, Event.unlock] } } := by
  have hlen : p.conns.length ≠ 0 := by simp [h]
  have h1 := getD_top l c none
  have h2 := take_set_top l c none
  unfold Get
  simp only [hlen, false_and, if_false, h, h1, h2, Env.emit]
  simp

theorem Add_eq (p : MultiConnPool) (conn : Option Conn) (e : Env) :
    Add p conn e = ({ p with conns := p.conns ++ [conn] },
                    { opens := e.opens,
                      events := e.events ++ [Event.lock, Event.signal, Event.unlock] }) := by
  simp [Add, Env.emit]

theorem Remove_pool (p : MultiConnPool) (conn : Option Conn) (e : Env) :
    (Remove p conn e).1 = { p with cap := p.cap - 1 } := by
  cases conn <;> cases h : p.CloseConn <;> simp [Remove, h]

theorem Remove_opens (p : MultiConnPool) (conn : Option Conn) (e : Env) :
    (Remove p conn e).2.opens = e.opens := by
  cases conn <;> cases h : p.CloseConn <;> simp [Remove, h, Env.emit]

theorem Remove_closing (p : MultiConnPool) (c : Conn) (f : CloseConnFunc) (e : Env)
    (h : p.CloseConn = some f) :
    (Remove p (some c) e).2.events
      = e.events ++ [Event.lock, Event.signal, Event.unlock, Event.closeConn c.RW] := by
  simp [Remove, h, Env.emit]

theorem Remove_silent (p : MultiConnPool) (conn : Option Conn) (e : Env)
    (h : conn = none ∨ p.CloseConn = none) :
    (Remove p conn e).2.events = e.events ++ [Event.lock, Event.signal, Event.unlock] := by
  rcases h with h | h
  · subst h
    cases h : p.CloseConn <;> simp [Remove, h, Env.emit]
  · cases conn <;> simp [Remove, h, Env.emit]

theorem nil_or_snoc {α : Type} (l : List α) : l = [] ∨ ∃ r b, l = r ++ [b] := by
  rcases List.eq_nil_or_concat l with h | ⟨r, b, h⟩
  · exact Or.inl h
  · exact Or.inr ⟨r, b, by simpa using h⟩

/-! ## Single calls -/

/-- C4: when `Get` reaches the open callback (idle stack empty, `cap < MaxCap`)
and the callback returns the error `err`, `Get` returns the nil connection,
`isNewlyOpened = false` and exactly `err`, and the pool it leaves behind is the
pool it found: same outstanding count, same idle stack, same capacity limit. -/
theorem Get_failure_is_atomic (p : MultiConnPool) (e : Env) (rw : Handle) (err : Error)
    (hidle : p.conns = []) (hcap : p.cap < p.MaxCap)
    (hopen : p.OpenConn e.opens = (rw, some err)) :
    (Get p e).ret = some { conn := none, isNew := false, err := some err } ∧
    (Get p e).pool = p ∧
    (Get p e).pool.cap = p.cap ∧
    (Get p e).pool.conns = p.conns ∧
    (Get p e).pool.MaxCap = p.MaxCap := by
  have h3 : (p.OpenConn e.opens).2 ≠ none := by simp [hopen]
  rw [Get_failed p e hidle hcap h3]
  simp [hopen]

theorem Get_failure_is_atomic_witness :
    (NewMultiConnPool dialErr none 1).conns = [] ∧
    (NewMultiConnPool dialErr none 1).cap < (NewMultiConnPool dialErr none 1).MaxCap ∧
    (Get (NewMultiConnPool dialErr none 1) Env.start).ret
      = some { conn := none, isNew := false, err := some "dial tcp: connection refused" } ∧
    (Get (NewMultiConnPool dialErr none 1) Env.start).pool = NewMultiConnPool dialErr none 1 :=
  ⟨rfl, by decide,
   (Get_failure_is_atomic (NewMultiConnPool dialErr none 1) Env.start 0
      "dial tcp: connection refused" rfl (by decide) rfl).1,
   (Get_failure_is_atomic (NewMultiConnPool dialErr none 1) Env.start 0
      "dial tcp: connection refused" rfl (by decide) rfl).2.1⟩

/-- C5: `Get` parks on the condition (no result, a `wait` event, pool untouched)
exactly when the idle stack is empty and `cap >= MaxCap`; `Add` and `Remove`
never wait on the condition. -/
theorem Get_parks_iff (p : MultiConnPool) (e : Env) (conn : Option Conn) :
    ((Get p e).ret = none ↔ (p.conns = [] ∧ p.cap ≥ p.MaxCap)) ∧
    (Event.wait ∈ (Get p e).env.events.drop e.events.length
      ↔ (p.conns = [] ∧ p.cap ≥ p.MaxCap)) ∧
    ((Get p e).ret = none → (Get p e).pool = p) ∧
    Event.wait ∉ (Add p conn e).2.events.drop e.events.length ∧
    Event.wait ∉ (Remove p conn e).2.events.drop e.events.length := by
  have hA : Event.wait ∉ (Add p conn e).2.events.drop e.events.length := by
    rw [Add_eq]; simp
  have hR : Event.wait ∉ (Remove p conn e).2.events.drop e.events.length := by
    cases conn <;> cases h : p.CloseConn <;> simp [Remove, h, Env.emit]
  by_cases h1 : p.conns = []
  · by_cases h2 : p.MaxCap ≤ p.cap
    · rw [Get_parked p e h1 h2]
      simp [h1, h2, hA, hR]
    · have h2' : p.cap < p.MaxCap := lt_of_not_le h2
      by_cases h3 : (p.OpenConn e.opens).2 = none
      · rw [Get_opened p e h1 h2' h3]
        simp [h1, h2', hA, hR]
      · rw [Get_failed p e h1 h2' h3]
        simp [h1, h2', hA, hR]
  · rcases nil_or_snoc p.conns with h0 | ⟨l, c, hl⟩
    · exact absurd h0 h1
    · rw [Get_popped p e l c hl]
      simp [h1, hA, hR]

/-- C7: with a non-empty idle stack (whatever `cap` and `MaxCap` are), `Get`
returns the connection added last, with `isNewlyOpened = false` and no error,
does not invoke the open callback, leaves the outstanding count and the
capacity limit alone, and leaves the stack without its top element, the rest in
the same order. -/
theorem Get_reuses_top (p : MultiConnPool) (e : Env) (h : p.conns ≠ []) :
    (Get p e).ret = some { conn := p.conns.getLast h, isNew := false, err := none } ∧
    (Get p e).env.opens = e.opens ∧
    (Get p e).env.events = e.events ++ [Event.lock, Event.unlock] ∧
    (Get p e).pool.cap = p.cap ∧
    (Get p e).pool.MaxCap = p.MaxCap ∧
    (Get p e).pool.conns = p.conns.dropLast ∧
    p.conns = (Get p e).pool.conns ++ [p.conns.getLast h] := by
  rcases nil_or_snoc p.conns with h0 | ⟨l, c, hl⟩
  · exact absurd h0 h
  · rw [Get_popped p e l c hl]
    simp [hl]

theorem Get_reuses_top_witness :
    warmPool.conns ≠ [] ∧
    (Get warmPool Env.start).ret
      = some { conn := some (NewConn 9), isNew := false, err := none } ∧
    (Get warmPool Env.start).pool.conns = [some (NewConn 7)] :=
  ⟨by simp [warmPool],
   (Get_reuses_top warmPool Env.start (by simp [warmPool])).1,
   (Get_reuses_top warmPool Env.start (by simp [warmPool])).2.2.2.2.2.1⟩

/-- C8: in every pool state and for every connection `conn`, `Add(conn)`
followed at once by `Get` gives back `conn` with `isNewlyOpened = false` and no
error, without invoking the open callback, and the pool is again the one the
two calls started from. -/
theorem Add_then_Get (p : MultiConnPool) (conn : Option Conn) (e : Env) :
    (Get (Add p conn e).1 (Add p conn e).2).ret
      = some { conn := conn, isNew := false, err := none } ∧
    (Get (Add p conn e).1 (Add p conn e).2).pool = p ∧
    (Get (Add p conn e).1 (Add p conn e).2).env.opens = e.opens ∧
    (Get (Add p conn e).1 (Add p conn e).2).env.events
      = e.events ++ [Event.lock, Event.signal, Event.unlock, Event.lock, Event.unlock] := by
  rw [Add_eq, Get_popped _ _ p.conns conn rfl]
  simp

/-- C9: with an empty idle stack, `cap < MaxCap` and an open callback that
returns the handle `rw` without error, `Get` invokes the open callback once,
returns a new connection wrapping `rw` with `isNewlyOpened = true` and no error,
raises the outstanding count by one, and leaves the idle stack empty and the
capacity limit as it was. -/
theorem Get_opens (p : MultiConnPool) (e : Env) (rw : Handle)
    (hidle : p.conns = []) (hcap : p.cap < p.MaxCap)
    (hopen : p.OpenConn e.opens = (rw, none)) :
    (Get p e).ret = some { conn := some (NewConn rw), isNew := true, err := none } ∧
    (NewConn rw).RW = rw ∧
    (Get p e).env.opens = e.opens + 1 ∧
    (Get p e).env.events = e.events ++ [Event.lock, Event.openConn, Event.unlock] ∧
    (Get p e).pool.cap = p.cap + 1 ∧
    (Get p e).pool.conns = [] ∧
    (Get p e).pool.MaxCap = p.MaxCap := by
  have h3 : (p.OpenConn e.opens).2 = none := by simp [hopen]
  rw [Get_opened p e hidle hcap h3]
  simp [hopen, hidle, NewConn]

theorem Get_opens_witness :
    (NewMultiConnPool dialOk none 1).conns = [] ∧
    (NewMultiConnPool dialOk none 1).cap < (NewMultiConnPool dialOk none 1).MaxCap ∧
    (Get (NewMultiConnPool dialOk none 1) Env.start).ret
      = some { conn := some (NewConn 0), isNew := true, err := none } ∧
    (Get (NewMultiConnPool dialOk none 1) Env.start).pool.cap = 0 + 1 :=
  ⟨rfl, by decide,
   (Get_opens (NewMultiConnPool dialOk none 1) Env.start 0 rfl (by decide) rfl).1,
   (Get_opens (NewMultiConnPool dialOk none 1) Env.start 0 rfl (by decide) rfl).2.2.2.2.1⟩

/-- C10: in every pool state and for every argument `conn`, `Remove(conn)`
lowers the outstanding count by one and leaves the idle stack and the capacity
limit alone.  It invokes the close callback once, on `conn.RW` and after
unlocking, when `conn` and the callback are both non-nil, and not at all when
`conn` is nil or the callback is absent; the count is lowered in either case. -/
theorem Remove_effect (p : MultiConnPool) (conn : Option Conn) (e : Env) :
    (Remove p conn e).1.cap = p.cap - 1 ∧
    (Remove p conn e).1.conns = p.conns ∧
    (Remove p conn e).1.MaxCap = p.MaxCap ∧
    (Remove p conn e).2.opens = e.opens ∧
    (∀ c f, conn = some c → p.CloseConn = some f →
      (Remove p conn e).2.events
        = e.events ++ [Event.lock, Event.signal, Event.unlock, Event.closeConn c.RW]) ∧
    (conn = none ∨ p.CloseConn = none →
      (Remove p conn e).2.events = e.events ++ [Event.lock, Event.signal, Event.unlock]) := by
  refine ⟨?_, ?_, ?_, Remove_opens p conn e, ?_, Remove_silent p conn e⟩
  · rw [Remove_pool]
  · rw [Remove_pool]
  · rw [Remove_pool]
  · intro c f hc hf
    subst hc
    exact Remove_closing p c f e hf

theorem Remove_effect_witness :
    (Remove (NewMultiConnPool dialOk (some hangUp) 3) (some (NewConn 4)) Env.start).1.cap
      = 0 - 1 ∧
    (Remove (NewMultiConnPool dialOk (some hangUp) 3) (some (NewConn 4)) Env.start).2.events
      = [] ++ [Event.lock, Event.signal, Event.unlock, Event.closeConn 4] ∧
    (Remove (NewMultiConnPool dialOk (some hangUp) 3) none Env.start).2.events
      = [] ++ [Event.lock, Event.signal, Event.unlock] :=
  ⟨(Remove_effect (NewMultiConnPool dialOk (some hangUp) 3) (some (NewConn 4)) Env.start).1,
   (Remove_effect (NewMultiConnPool dialOk (some hangUp) 3) (some (NewConn 4))
      Env.start).2.2.2.2.1 (NewConn 4) hangUp rfl rfl,
   (Remove_effect (NewMultiConnPool dialOk (some hangUp) 3) none
      Env.start).2.2.2.2.2 (Or.inl rfl)⟩


/-! ## Sequences of calls -/

theorem Get_cases (p : MultiConnPool) (e : Env) :
    (p.conns = [] ∧ p.MaxCap ≤ p.cap ∧ (Get p e).ret = none ∧ (Get p e).pool = p ∧
      (Get p e).env.opens = e.opens) ∨
    (p.conns = [] ∧ p.cap < p.MaxCap ∧ (p.OpenConn e.opens).2 ≠ none ∧
      (Get p e).ret = some { conn := none, isNew := false, err := (p.OpenConn e.opens).2 } ∧
      (Get p e).pool = p ∧ (Get p e).env.opens = e.opens + 1) ∨
    (p.conns = [] ∧ p.cap < p.MaxCap ∧ (p.OpenConn e.opens).2 = none ∧
      (Get p e).ret = some { conn := some (NewConn (p.OpenConn e.opens).1), isNew := true,
                             err := none } ∧
      (Get p e).pool = { p with cap := p.cap + 1 } ∧ (Get p e).env.opens = e.opens + 1) ∨
    (∃ l c, p.conns = l ++ [c] ∧
      (Get p e).ret = some { conn := c, isNew := false, err := none } ∧
      (Get p e).pool = { p with conns := l } ∧ (Get p e).env.opens = e.opens) := by
  rcases nil_or_snoc p.conns with h1 | ⟨l, c, hl⟩
  · by_cases h2 : p.MaxCap ≤ p.cap
    · left
      rw [Get_parked p e h1 h2]
      exact ⟨h1, h2, rfl, rfl, rfl⟩
    · have h2' : p.cap < p.MaxCap := lt_of_not_le h2
      by_cases h3 : (p.OpenConn e.opens).2 = none
      · right; right; left
        rw [Get_opened p e h1 h2' h3]
        exact ⟨h1, h2', h3, rfl, rfl, rfl⟩
      · right; left
        rw [Get_failed p e h1 h2' h3]
        exact ⟨h1, h2', h3, rfl, rfl, rfl⟩
  · right; right; right
    rw [Get_popped p e l c hl]
    exact ⟨l, c, hl, rfl, rfl, rfl⟩

theorem step_get_pool (s : Sys) : (step s Call.get).pool = (Get s.pool s.env).pool := rfl

theorem step_add_pool (s : Sys) (conn : Option Conn) :
    (step s (Call.add conn)).pool = { s.pool with conns := s.pool.conns ++ [conn] } := by
  simp [step, Add_eq]

theorem step_remove_pool (s : Sys) (conn : Option Conn) :
    (step s (Call.remove conn)).pool = { s.pool with cap := s.pool.cap - 1 } := by
  simp [step, Remove_pool]

theorem step_MaxCap (s : Sys) (c : Call) : (step s c).pool.MaxCap = s.pool.MaxCap := by
  cases c with
  | get =>
    rw [step_get_pool]
    rcases Get_cases s.pool s.env with h | h | h | ⟨l, c, h⟩
    · rw [h.2.2.2.1]
    · rw [h.2.2.2.2.1]
    · rw [h.2.2.2.2.1]
    · rw [h.2.2.1]
  | add conn => rw [step_add_pool]
  | remove conn => rw [step_remove_pool]

theorem step_cap_le (s : Sys) (c : Call) (h : s.pool.cap ≤ s.pool.MaxCap) :
    (step s c).pool.cap ≤ (step s c).pool.MaxCap := by
  rw [step_MaxCap]
  cases c with
  | get =>
    rw [step_get_pool]
    rcases Get_cases s.pool s.env with h' | h' | h' | ⟨l, c, h'⟩
    · rw [h'.2.2.2.1]; exact h
    · rw [h'.2.2.2.2.1]; exact h
    · rw [h'.2.2.2.2.1]
      have := h'.2.1
      show s.pool.cap + 1 ≤ s.pool.MaxCap
      omega
    · rw [h'.2.2.1]; exact h
  | add conn => rw [step_add_pool]; exact h
  | remove conn =>
    rw [step_remove_pool]
    show s.pool.cap - 1 ≤ s.pool.MaxCap
    omega

theorem run_MaxCap (s : Sys) (cs : List Call) : (run s cs).pool.MaxCap = s.pool.MaxCap := by
  induction cs generalizing s with
  | nil => rfl
  | cons c cs ih => rw [run, ih, step_MaxCap]

theorem run_cap_le (s : Sys) (cs : List Call) (h : s.pool.cap ≤ s.pool.MaxCap) :
    (run s cs).pool.cap ≤ (run s cs).pool.MaxCap := by
  induction cs generalizing s with
  | nil => exact h
  | cons c cs ih => exact ih (step s c) (step_cap_le s c h)

theorem step_cap_ge (s : Sys) (c : Call) : s.pool.cap - 1 ≤ (step s c).pool.cap := by
  cases c with
  | get =>
    rw [step_get_pool]
    rcases Get_cases s.pool s.env with g | g | g | ⟨l, c, g⟩
    · rw [g.2.2.2.1]; omega
    · rw [g.2.2.2.2.1]; omega
    · rw [g.2.2.2.2.1]
      show s.pool.cap - 1 ≤ s.pool.cap + 1
      omega
    · rw [g.2.2.1]
      show s.pool.cap - 1 ≤ s.pool.cap
      omega
  | add conn =>
    rw [step_add_pool]
    show s.pool.cap - 1 ≤ s.pool.cap
    omega
  | remove conn =>
    rw [step_remove_pool]

theorem run_cap_ge (s : Sys) (cs : List Call) :
    s.pool.cap - cs.length ≤ (run s cs).pool.cap := by
  induction cs generalizing s with
  | nil => simp [run]
  | cons c cs ih =>
    have h1 := step_cap_ge s c
    have h2 := ih (step s c)
    simp only [run, List.length_cons, Nat.cast_add, Nat.cast_one]
    omega

/-- The `int64` counter of the source does not wrap: with a capacity limit that
is a non-negative `int64`, the outstanding count lies in the `int64` range after
every sequence of at most `2^63` calls. -/
theorem cap_within_int64 (openConn : OpenConnFunc) (closeConn : Option CloseConnFunc)
    (maxCap : Int) (e : Env) (cs : List Call) (h0 : 0 ≤ maxCap) (h1 : maxCap < 2 ^ 63)
    (hlen : cs.length ≤ 2 ^ 63) :
    -(2 ^ 63) ≤ (run (Sys.start (NewMultiConnPool openConn closeConn maxCap) e) cs).pool.cap ∧
    (run (Sys.start (NewMultiConnPool openConn closeConn maxCap) e) cs).pool.cap < 2 ^ 63 := by
  have hlo := run_cap_ge (Sys.start (NewMultiConnPool openConn closeConn maxCap) e) cs
  have hhi := run_cap_le (Sys.start (NewMultiConnPool openConn closeConn maxCap) e) cs h0
  rw [run_MaxCap] at hhi
  have hs : (Sys.start (NewMultiConnPool openConn closeConn maxCap) e).pool.cap = 0 := rfl
  have hM : (Sys.start (NewMultiConnPool openConn closeConn maxCap) e).pool.MaxCap = maxCap := rfl
  rw [hs] at hlo
  rw [hM] at hhi
  have hlen' : (cs.length : Int) ≤ 2 ^ 63 := by exact_mod_cast hlen
  constructor <;> omega

/-- C1: for a pool made by `NewMultiConnPool` with a capacity limit `maxCap >= 0`,
after every finite sequence of `Get`/`Add`/`Remove` calls, whatever their
arguments and whatever the open callback returns, the outstanding count `cap`
is at most the capacity limit `MaxCap`, which is still `maxCap`. -/
theorem cap_never_exceeds_MaxCap (openConn : OpenConnFunc) (closeConn : Option CloseConnFunc)
    (maxCap : Int) (e : Env) (cs : List Call) (hmax : 0 ≤ maxCap) :
    (run (Sys.start (NewMultiConnPool openConn closeConn maxCap) e) cs).pool.cap
      ≤ (run (Sys.start (NewMultiConnPool openConn closeConn maxCap) e) cs).pool.MaxCap ∧
    (run (Sys.start (NewMultiConnPool openConn closeConn maxCap) e) cs).pool.MaxCap = maxCap :=
  ⟨run_cap_le _ cs hmax, run_MaxCap _ cs⟩

theorem cap_never_exceeds_MaxCap_witness :
    (0 : Int) ≤ 1 ∧
    (run (Sys.start (NewMultiConnPool dialOk none 1) Env.start)
        [Call.get, Call.get, Call.add none, Call.remove none, Call.get]).pool.cap
      ≤ (run (Sys.start (NewMultiConnPool dialOk none 1) Env.start)
        [Call.get, Call.get, Call.add none, Call.remove none, Call.get]).pool.MaxCap :=
  ⟨by decide,
   (cap_never_exceeds_MaxCap dialOk none 1 Env.start
      [Call.get, Call.get, Call.add none, Call.remove none, Call.get] (by decide)).1⟩

/-- C2, as stated, fails: one `Remove` on a pool that has opened no connection
leaves the outstanding count at `-1`. -/
theorem cap_negative_after_unmatched_Remove :
    ¬ (0 ≤ (run (Sys.start (NewMultiConnPool dialOk none 1) Env.start)
              [Call.remove none]).pool.cap) := by
  decide

theorem RemoveCovered_step (s : Sys) (c : Call) (cs : List Call)
    (h : RemoveCovered s (c :: cs)) :
    ((∃ conn, c = Call.remove conn) → 0 < s.pool.cap) ∧ RemoveCovered (step s c) cs := by
  cases c with
  | get => exact ⟨fun ⟨_, h'⟩ => (by cases h'), h⟩
  | add conn => exact ⟨fun ⟨_, h'⟩ => (by cases h'), h⟩
  | remove conn => exact ⟨fun _ => h.1, h.2⟩

theorem RemoveCovered_take (s : Sys) (cs : List Call) (n : Nat) (h : RemoveCovered s cs) :
    RemoveCovered s (cs.take n) := by
  induction cs generalizing s n with
  | nil => simpa using h
  | cons c cs ih =>
    cases n with
    | zero => simp [RemoveCovered]
    | succ n =>
      have h' := RemoveCovered_step s c cs h
      rw [List.take_succ_cons]
      cases c with
      | get => exact ih _ n h'.2
      | add conn => exact ih _ n h'.2
      | remove conn => exact ⟨h.1, ih _ n h'.2⟩

theorem run_cap_nonneg (s : Sys) (cs : List Call) (h0 : 0 ≤ s.pool.cap)
    (h : RemoveCovered s cs) : 0 ≤ (run s cs).pool.cap := by
  induction cs generalizing s with
  | nil => exact h0
  | cons c cs ih =>
    have h' := RemoveCovered_step s c cs h
    refine ih (step s c) ?_ h'.2
    cases c with
    | get =>
      rw [step_get_pool]
      rcases Get_cases s.pool s.env with g | g | g | ⟨l, c, g⟩
      · rw [g.2.2.2.1]; exact h0
      · rw [g.2.2.2.2.1]; exact h0
      · rw [g.2.2.2.2.1]
        show 0 ≤ s.pool.cap + 1
        omega
      · rw [g.2.2.1]; exact h0
    | add conn => rw [step_add_pool]; exact h0
    | remove conn =>
      rw [step_remove_pool]
      have := h'.1 ⟨conn, rfl⟩
      show 0 ≤ s.pool.cap - 1
      omega

/-- C2, amended: for a pool made by `NewMultiConnPool`, at every point of a
finite sequence of `Get`/`Add`/`Remove` calls in which no `Remove` is issued
while the outstanding count is zero, the outstanding count `cap` is not
negative. -/
theorem cap_nonneg_when_Remove_covered (openConn : OpenConnFunc)
    (closeConn : Option CloseConnFunc) (maxCap : Int) (e : Env) (cs : List Call) (n : Nat)
    (hcov : RemoveCovered (Sys.start (NewMultiConnPool openConn closeConn maxCap) e) cs) :
    0 ≤ (run (Sys.start (NewMultiConnPool openConn closeConn maxCap) e) (cs.take n)).pool.cap :=
  run_cap_nonneg _ _ (le_refl 0) (RemoveCovered_take _ cs n hcov)

theorem cap_nonneg_when_Remove_covered_witness :
    RemoveCovered (Sys.start (NewMultiConnPool dialOk none 1) Env.start)
      [Call.get, Call.remove (some (NewConn 0)), Call.get] ∧
    0 ≤ (run (Sys.start (NewMultiConnPool dialOk none 1) Env.start)
          ([Call.get, Call.remove (some (NewConn 0)), Call.get].take 2)).pool.cap :=
  ⟨⟨by decide, trivial⟩,
   cap_nonneg_when_Remove_covered dialOk none 1 Env.start
     [Call.get, Call.remove (some (NewConn 0)), Call.get] 2 ⟨by decide, trivial⟩⟩


/-! ## Ownership -/

theorem step_OpenConn (s : Sys) (c : Call) : (step s c).pool.OpenConn = s.pool.OpenConn := by
  cases c with
  | get =>
    rw [step_get_pool]
    rcases Get_cases s.pool s.env with h | h | h | ⟨l, c, h⟩
    · rw [h.2.2.2.1]
    · rw [h.2.2.2.2.1]
    · rw [h.2.2.2.2.1]
    · rw [h.2.2.1]
  | add conn => rw [step_add_pool]
  | remove conn => rw [step_remove_pool]

theorem step_get_held (s : Sys) (r : GetResult) (h : (Get s.pool s.env).ret = some r) :
    (step s Call.get).held = match r.conn with
      | some c => c :: s.held
      | none => s.held := by
  simp only [step, h]
  rcases r with ⟨_ | c, b, er⟩ <;> rfl

theorem step_get_held_parked (s : Sys) (h : (Get s.pool s.env).ret = none) :
    (step s Call.get).held = s.held := by
  simp only [step, h]

theorem step_get_env (s : Sys) : (step s Call.get).env = (Get s.pool s.env).env := rfl

theorem step_add_opens (s : Sys) (conn : Option Conn) :
    (step s (Call.add conn)).env.opens = s.env.opens := by
  simp [step, Add_eq]

theorem step_remove_opens (s : Sys) (conn : Option Conn) :
    (step s (Call.remove conn)).env.opens = s.env.opens := by
  simp [step, Remove_opens]

theorem NewConn_inj (a b : Handle) (h : NewConn a = NewConn b) : a = b := by
  have := congrArg Conn.RW h
  simpa [NewConn] using this

theorem Owned_of_perm (f : OpenConnFunc) (s t : Sys)
    (hp : List.Perm (t.pool.conns ++ t.held.map some) (s.pool.conns ++ s.held.map some))
    (ho : s.env.opens ≤ t.env.opens) (h : Owned f s) : Owned f t := by
  refine ⟨hp.nodup_iff.mpr h.1, ?_⟩
  intro x hx
  obtain ⟨k, hk, hk2, hk3⟩ := h.2 x (hp.subset hx)
  exact ⟨k, lt_of_lt_of_le hk ho, hk2, hk3⟩

theorem Owned_step_get (f : OpenConnFunc) (s : Sys) (hf : FreshHandles f)
    (hO : s.pool.OpenConn = f) (h : Owned f s) : Owned f (step s Call.get) := by
  rcases Get_cases s.pool s.env with g | g | g | ⟨l, c, g⟩
  · refine Owned_of_perm f s _ ?_ ?_ h
    · rw [step_get_held_parked s g.2.2.1, step_get_pool, g.2.2.2.1]
    · rw [step_get_env, g.2.2.2.2]
  · refine Owned_of_perm f s _ ?_ ?_ h
    · rw [step_get_held s _ g.2.2.2.1, step_get_pool, g.2.2.2.2.1]
    · rw [step_get_env, g.2.2.2.2.2]; omega
  · have hheld := step_get_held s _ g.2.2.2.1
    have hpool : (step s Call.get).pool.conns = [] := by
      rw [step_get_pool, g.2.2.2.2.1]; exact g.1
    have hop : (step s Call.get).env.opens = s.env.opens + 1 := by
      rw [step_get_env, g.2.2.2.2.2]
    simp only at hheld
    have hconns := g.1
    obtain ⟨hnd, hprov⟩ := h
    rw [hconns] at hnd hprov
    simp only [List.nil_append] at hnd hprov
    unfold Owned
    rw [hpool, hheld, hop, hO]
    simp only [List.nil_append, List.map_cons]
    constructor
    · refine List.nodup_cons.mpr ⟨?_, hnd⟩
      intro hmem
      obtain ⟨k, hk, hk2, hk3⟩ := hprov _ hmem
      have heq : NewConn (f s.env.opens).1 = NewConn (f k).1 := Option.some.inj hk3
      have := hf _ _ (hO ▸ g.2.2.1) hk2 (NewConn_inj _ _ heq)
      omega
    · intro x hx
      rcases List.mem_cons.mp hx with hx | hx
      · exact ⟨s.env.opens, by omega, hO ▸ g.2.2.1, hx⟩
      · obtain ⟨k, hk, hk2, hk3⟩ := hprov x hx
        exact ⟨k, by omega, hk2, hk3⟩
  · have hc : ∃ c0, c = some c0 := by
      obtain ⟨k, _, _, hk3⟩ := h.2 c (by rw [g.1]; simp)
      exact ⟨_, hk3⟩
    obtain ⟨c0, rfl⟩ := hc
    refine Owned_of_perm f s _ ?_ ?_ h
    · rw [step_get_held s _ g.2.1, step_get_pool, g.2.2.1, g.1]
      simp
    · rw [step_get_env, g.2.2.2]

theorem Owned_step_add (f : OpenConnFunc) (s : Sys) (c : Conn) (hc : c ∈ s.held)
    (h : Owned f s) : Owned f (step s (Call.add (some c))) := by
  refine Owned_of_perm f s _ ?_ ?_ h
  · rw [step_add_pool]
    show List.Perm (s.pool.conns ++ [some c] ++ (s.held.erase c).map some) _
    rw [List.append_assoc]
    refine List.Perm.append_left _ ?_
    have := (List.perm_cons_erase hc).map some
    simpa using this.symm
  · rw [step_add_opens]

theorem Owned_step_remove (f : OpenConnFunc) (s : Sys) (c : Conn)
    (h : Owned f s) : Owned f (step s (Call.remove (some c))) := by
  have hsub : List.Sublist ((step s (Call.remove (some c))).pool.conns
      ++ (step s (Call.remove (some c))).held.map some) (s.pool.conns ++ s.held.map some) := by
    rw [step_remove_pool]
    show List.Sublist (s.pool.conns ++ (s.held.erase c).map some) _
    exact List.Sublist.append_left ((List.erase_sublist c s.held).map some) _
  refine ⟨hsub.nodup h.1, ?_⟩
  intro x hx
  obtain ⟨k, hk, hk2, hk3⟩ := h.2 x (hsub.subset hx)
  exact ⟨k, by rw [step_remove_opens]; exact hk, hk2, hk3⟩


theorem Disciplined_take (s : Sys) (cs : List Call) (n : Nat) (h : Disciplined s cs) :
    Disciplined s (cs.take n) := by
  induction cs generalizing s n with
  | nil => simpa using h
  | cons c cs ih =>
    cases n with
    | zero => simp [Disciplined]
    | succ n =>
      rw [List.take_succ_cons]
      cases c with
      | get => exact ih _ n h
      | add conn => exact ⟨h.1, ih _ n h.2⟩
      | remove conn => exact ⟨h.1, ih _ n h.2⟩

theorem Owned_run (f : OpenConnFunc) (s : Sys) (cs : List Call) (hf : FreshHandles f)
    (hO : s.pool.OpenConn = f) (h : Owned f s) (hd : Disciplined s cs) :
    Owned f (run s cs) ∧ (run s cs).pool.OpenConn = f := by
  induction cs generalizing s with
  | nil => exact ⟨h, hO⟩
  | cons c cs ih =>
    have hO' : (step s c).pool.OpenConn = f := by rw [step_OpenConn, hO]
    cases c with
    | get => exact ih _ hO' (Owned_step_get f s hf hO h) hd
    | add conn =>
      obtain ⟨⟨c, rfl, hc⟩, hd'⟩ := hd
      exact ih _ hO' (Owned_step_add f s c hc h) hd'
    | remove conn =>
      obtain ⟨⟨c, rfl, _⟩, hd'⟩ := hd
      exact ih _ hO' (Owned_step_remove f s c h) hd'

theorem Owned_start (f : OpenConnFunc) (closeConn : Option CloseConnFunc) (maxCap : Int)
    (e : Env) : Owned f (Sys.start (NewMultiConnPool f closeConn maxCap) e) := by
  constructor
  · simp [Sys.start, NewMultiConnPool]
  · intro x hx
    simp [Sys.start, NewMultiConnPool] at hx

theorem Owned_Get_not_held (f : OpenConnFunc) (s : Sys) (hf : FreshHandles f)
    (hO : s.pool.OpenConn = f) (h : Owned f s) (r : GetResult) (c : Conn)
    (hr : (Get s.pool s.env).ret = some r) (hc : r.conn = some c) : c ∉ s.held := by
  have h' := (Owned_step_get f s hf hO h).1
  have hheld := step_get_held s r hr
  rw [hc] at hheld
  simp only at hheld
  rw [hheld] at h'
  intro hmem
  have h2 := (List.nodup_append.mp h').2.1
  simp only [List.map_cons] at h2
  have h3 := (List.nodup_cons.mp h2).1
  exact h3 (List.mem_map_of_mem some hmem)

/-- C3: take a pool made by `NewMultiConnPool` whose open callback never returns
the same handle twice, and a finite sequence of calls in which every `Add(c)`
and `Remove(c)` is applied to a connection `c` that is checked out at that
moment.  Then at every point of the sequence the idle stack holds no connection
twice and no checked-out connection (no connection is checked out twice
either, and the stack holds no nil), and a connection returned by a `Get`
issued at that point is not one of the connections checked out. -/
theorem exclusive_ownership (openConn : OpenConnFunc) (closeConn : Option CloseConnFunc)
    (maxCap : Int) (e : Env) (cs : List Call) (n : Nat)
    (hfresh : FreshHandles openConn)
    (hdisc : Disciplined (Sys.start (NewMultiConnPool openConn closeConn maxCap) e) cs) :
    (run (Sys.start (NewMultiConnPool openConn closeConn maxCap) e) (cs.take n)).pool.conns.Nodup ∧
    (run (Sys.start (NewMultiConnPool openConn closeConn maxCap) e) (cs.take n)).held.Nodup ∧
    (∀ c, c ∈ (run (Sys.start (NewMultiConnPool openConn closeConn maxCap) e) (cs.take n)).held →
      some c ∉ (run (Sys.start (NewMultiConnPool openConn closeConn maxCap) e)
        (cs.take n)).pool.conns) ∧
    none ∉ (run (Sys.start (NewMultiConnPool openConn closeConn maxCap) e) (cs.take n)).pool.conns ∧
    (∀ r c,
      (Get (run (Sys.start (NewMultiConnPool openConn closeConn maxCap) e) (cs.take n)).pool
           (run (Sys.start (NewMultiConnPool openConn closeConn maxCap) e) (cs.take n)).env).ret
        = some r →
      r.conn = some c →
      c ∉ (run (Sys.start (NewMultiConnPool openConn closeConn maxCap) e) (cs.take n)).held) := by
  obtain ⟨hown, hO⟩ := Owned_run openConn _ (cs.take n) hfresh rfl
    (Owned_start openConn closeConn maxCap e) (Disciplined_take _ cs n hdisc)
  have hnd := List.nodup_append.mp hown.1
  refine ⟨hnd.1, ?_, ?_, ?_, ?_⟩
  · exact List.Nodup.of_map some hnd.2.1
  · intro c hc hmem
    exact hnd.2.2 hmem (List.mem_map_of_mem some hc)
  · intro hmem
    obtain ⟨k, _, _, hk⟩ := hown.2 none (List.mem_append_left _ hmem)
    cases hk
  · intro r c hr hc
    exact Owned_Get_not_held openConn _ hfresh hO hown r c hr hc


theorem FreshHandles_dialOk : FreshHandles dialOk := by
  intro i j _ _ h
  exact h

theorem exclusive_ownership_witness :
    FreshHandles dialOk ∧
    Disciplined (Sys.start (NewMultiConnPool dialOk none 2) Env.start)
      [Call.get, Call.get, Call.add (some (NewConn 0)), Call.remove (some (NewConn 1)),
       Call.get] ∧
    (run (Sys.start (NewMultiConnPool dialOk none 2) Env.start)
      ([Call.get, Call.get, Call.add (some (NewConn 0)), Call.remove (some (NewConn 1)),
        Call.get].take 3)).pool.conns.Nodup :=
  ⟨FreshHandles_dialOk,
   ⟨⟨NewConn 0, rfl, by decide⟩, ⟨NewConn 1, rfl, by decide⟩, trivial⟩,
   (exclusive_ownership dialOk none 2 Env.start
      [Call.get, Call.get, Call.add (some (NewConn 0)), Call.remove (some (NewConn 1)),
       Call.get] 3 FreshHandles_dialOk
      ⟨⟨NewConn 0, rfl, by decide⟩, ⟨NewConn 1, rfl, by decide⟩, trivial⟩).1⟩

/-! ## A pool at its capacity limit -/

theorem run_snoc (s : Sys) (cs : List Call) (c : Call) :
    run s (cs ++ [c]) = step (run s cs) c := by
  induction cs generalizing s with
  | nil => rfl
  | cons d cs ih => exact ih (step s d)

theorem run_gets_fresh (f : OpenConnFunc) (closeConn : Option CloseConnFunc) (N : Nat) (e : Env)
    (hok : ∀ k, (f k).2 = none) (k : Nat) (hk : k ≤ N) :
    (run (Sys.start (NewMultiConnPool f closeConn N) e) (List.replicate k Call.get)).pool
      = { NewMultiConnPool f closeConn N with cap := k } ∧
    (run (Sys.start (NewMultiConnPool f closeConn N) e) (List.replicate k Call.get)).held.length
      = k := by
  induction k with
  | zero => exact ⟨rfl, rfl⟩
  | succ k ih =>
    obtain ⟨hp, hh⟩ := ih (by omega)
    rw [List.replicate_succ', run_snoc]
    generalize run (Sys.start (NewMultiConnPool f closeConn N) e) (List.replicate k Call.get) = s
      at hp hh
    have h1 : s.pool.conns = [] := by rw [hp]; rfl
    have h2 : s.pool.cap < s.pool.MaxCap := by
      rw [hp]
      show (k : Int) < (N : Int)
      omega
    have h3 : (s.pool.OpenConn s.env.opens).2 = none := by rw [hp]; exact hok _
    have hG := Get_opened s.pool s.env h1 h2 h3
    constructor
    · rw [step_get_pool, hG, hp]
      simp [NewMultiConnPool]
    · rw [step_get_held s _ (by rw [hG])]
      simp [hh]

theorem run_parked (s : Sys) (m : Nat) (h1 : s.pool.conns = []) (h2 : s.pool.MaxCap ≤ s.pool.cap) :
    (run s (List.replicate m Call.get)).pool = s.pool ∧
    (run s (List.replicate m Call.get)).env.opens = s.env.opens ∧
    (run s (List.replicate m Call.get)).held = s.held := by
  induction m generalizing s with
  | zero => exact ⟨rfl, rfl, rfl⟩
  | succ m ih =>
    have hG := Get_parked s.pool s.env h1 h2
    have hp : (step s Call.get).pool = s.pool := by rw [step_get_pool, hG]
    have he : (step s Call.get).env.opens = s.env.opens := by rw [step_get_env, hG]
    have hh : (step s Call.get).held = s.held := step_get_held_parked s (by rw [hG])
    have := ih (step s Call.get) (by rw [hp]; exact h1) (by rw [hp]; exact h2)
    rw [List.replicate_succ, run]
    rw [this.1, this.2.1, this.2.2, hp, he, hh]
    exact ⟨rfl, rfl, rfl⟩

/-- C6: for every `N`, take a fresh pool with capacity limit `N` whose open
callback always succeeds, and call `Get` `N` times with no `Add` or `Remove`.
Then the idle stack is empty, `cap = N = MaxCap` and `N` connections are checked
out; the next `Get` parks, and parks again however often it re-checks while the
pool is unchanged; after one `Add(c)` the `Get` returns `c` as a reused
connection, and after one `Remove(c)` it returns a newly opened connection. -/
theorem Get_blocks_at_capacity (N : Nat) (openConn : OpenConnFunc)
    (closeConn : Option CloseConnFunc) (e : Env) (hok : ∀ k, (openConn k).2 = none) :
    (afterGets N openConn closeConn e).pool.conns = [] ∧
    (afterGets N openConn closeConn e).pool.cap = N ∧
    (afterGets N openConn closeConn e).pool.MaxCap = N ∧
    (afterGets N openConn closeConn e).held.length = N ∧
    (Get (afterGets N openConn closeConn e).pool (afterGets N openConn closeConn e).env).ret
      = none ∧
    (∀ m,
      (run (afterGets N openConn closeConn e) (List.replicate m Call.get)).pool
        = (afterGets N openConn closeConn e).pool ∧
      (Get (run (afterGets N openConn closeConn e) (List.replicate m Call.get)).pool
           (run (afterGets N openConn closeConn e) (List.replicate m Call.get)).env).ret
        = none) ∧
    (∀ c,
      (Get (Add (afterGets N openConn closeConn e).pool c
              (afterGets N openConn closeConn e).env).1
           (Add (afterGets N openConn closeConn e).pool c
              (afterGets N openConn closeConn e).env).2).ret
        = some { conn := c, isNew := false, err := none }) ∧
    (∀ c,
      (Get (Remove (afterGets N openConn closeConn e).pool c
              (afterGets N openConn closeConn e).env).1
           (Remove (afterGets N openConn closeConn e).pool c
              (afterGets N openConn closeConn e).env).2).ret
        = some { conn := some (NewConn (openConn (afterGets N openConn closeConn e).env.opens).1),
                 isNew := true, err := none }) := by
  obtain ⟨hp, hh⟩ := run_gets_fresh openConn closeConn N e hok N (le_refl N)
  change (afterGets N openConn closeConn e).pool = _ at hp
  change (afterGets N openConn closeConn e).held.length = _ at hh
  generalize afterGets N openConn closeConn e = s at hp hh ⊢
  have h1 : s.pool.conns = [] := by rw [hp]; rfl
  have hc : s.pool.cap = N := by rw [hp]
  have hm : s.pool.MaxCap = N := by rw [hp]; rfl
  have hO : s.pool.OpenConn = openConn := by rw [hp]; rfl
  have h2 : s.pool.MaxCap ≤ s.pool.cap := by rw [hc, hm]
  refine ⟨h1, hc, hm, hh, ?_, ?_, ?_, ?_⟩
  · rw [Get_parked s.pool s.env h1 h2]
  · intro m
    have hr := run_parked s m h1 h2
    refine ⟨hr.1, ?_⟩
    rw [Get_parked _ _ (by rw [hr.1]; exact h1) (by rw [hr.1]; exact h2)]
  · intro c
    rw [Add_eq, Get_popped _ _ s.pool.conns c rfl]
  · intro c
    have hq := Remove_pool s.pool c s.env
    have ho := Remove_opens s.pool c s.env
    have g1 : (Remove s.pool c s.env).1.conns = [] := by rw [hq]; exact h1
    have g2 : (Remove s.pool c s.env).1.cap < (Remove s.pool c s.env).1.MaxCap := by
      rw [hq]
      show s.pool.cap - 1 < s.pool.MaxCap
      omega
    have g3 : ((Remove s.pool c s.env).1.OpenConn (Remove s.pool c s.env).2.opens).2 = none := by
      rw [hq]
      show (s.pool.OpenConn _).2 = none
      rw [hO]; exact hok _
    rw [Get_opened _ _ g1 g2 g3, ho, hq]
    show some _ = some _
    rw [hO]

theorem Get_blocks_at_capacity_witness :
    (∀ k, (dialOk k).2 = none) ∧
    (afterGets 2 dialOk none Env.start).pool.cap = (2 : Nat) ∧
    (Get (afterGets 2 dialOk none Env.start).pool (afterGets 2 dialOk none Env.start).env).ret
      = none :=
  ⟨fun _ => rfl,
   (Get_blocks_at_capacity 2 dialOk none Env.start (fun _ => rfl)).2.1,
   (Get_blocks_at_capacity 2 dialOk none Env.start (fun _ => rfl)).2.2.2.2.1⟩


/-! ## The fixed single-connection pool -/

theorem SingleConnPool_call_keeps (p : SingleConnPool) (e : Env) (c : PoolCall) :
    (p.call e c).2 = (p, e) := by
  cases c <;> rfl

theorem SingleConnPool_run_eq (p : SingleConnPool) (e : Env) (cs : List PoolCall) :
    p.run e cs =
      (cs.map (fun c => match c with
          | PoolCall.get => PoolRet.got { conn := p.conn, isNew := false, err := none }
          | PoolCall.len => PoolRet.size 1
          | PoolCall.add _ => PoolRet.done
          | PoolCall.remove _ => PoolRet.done),
       p, e) := by
  induction cs with
  | nil => rfl
  | cons c cs ih =>
    have hk := SingleConnPool_call_keeps p e c
    have h1 : (p.call e c).2.1 = p := by rw [hk]
    have h2 : (p.call e c).2.2 = e := by rw [hk]
    simp only [SingleConnPool.run, h1, h2, ih, List.map_cons]
    cases c <;> rfl

/-- C13: for every connection `X`, nil included, and every finite sequence of
`Get`/`Add`/`Remove`/`Len` calls with any arguments on `NewSingleConnPool(X)`:
every `Get` returns `(X, false, nil)`, every `Len` returns `1`, and at the end
the pool is still the one wrapping `X` and nothing was done to the environment,
so no close callback was invoked. -/
theorem SingleConnPool_fixed (X : Option Conn) (e : Env) (cs : List PoolCall) :
    ((NewSingleConnPool X).run e cs).1 =
      cs.map (fun c => match c with
        | PoolCall.get => PoolRet.got { conn := X, isNew := false, err := none }
        | PoolCall.len => PoolRet.size 1
        | PoolCall.add _ => PoolRet.done
        | PoolCall.remove _ => PoolRet.done) ∧
    ((NewSingleConnPool X).run e cs).2.1 = NewSingleConnPool X ∧
    ((NewSingleConnPool X).run e cs).2.2 = e ∧
    (∀ conn, ((NewSingleConnPool X).Add conn e) = (NewSingleConnPool X, e)) ∧
    (∀ conn, ((NewSingleConnPool X).Remove conn e) = (NewSingleConnPool X, e)) ∧
    (∀ rw, Event.closeConn rw ∉
      ((NewSingleConnPool X).run e cs).2.2.events.drop e.events.length) := by
  rw [SingleConnPool_run_eq]
  refine ⟨rfl, rfl, rfl, fun _ => rfl, fun _ => rfl, ?_⟩
  intro rw
  simp

/-! ## `Len` and `Add` -/

/-- C14: `Len` returns the number of connections in the idle stack, not the
outstanding count and not the capacity limit: after `k` opening `Get`s on a
fresh pool with capacity limit `N >= k` and an open callback that succeeds,
`Len` is `0` while the outstanding count is `k` and the limit is `N`; and a call
of `Len` leaves the pool and the environment as they were. -/
theorem Len_counts_idle (p : MultiConnPool) (e : Env) (openConn : OpenConnFunc)
    (closeConn : Option CloseConnFunc) (N k : Nat)
    (hok : ∀ i, (openConn i).2 = none) (hk : k ≤ N) :
    Len p = (p.conns.length : Int) ∧
    (LenCall p e).1 = (p.conns.length : Int) ∧
    (LenCall p e).2 = (p, e) ∧
    Len (run (Sys.start (NewMultiConnPool openConn closeConn N) e)
          (List.replicate k Call.get)).pool = 0 ∧
    (run (Sys.start (NewMultiConnPool openConn closeConn N) e)
          (List.replicate k Call.get)).pool.cap = k ∧
    (run (Sys.start (NewMultiConnPool openConn closeConn N) e)
          (List.replicate k Call.get)).pool.MaxCap = N := by
  obtain ⟨hp, _⟩ := run_gets_fresh openConn closeConn N e hok k hk
  refine ⟨rfl, rfl, rfl, ?_, ?_, ?_⟩
  · rw [hp]; rfl
  · rw [hp]
  · rw [hp]; rfl

theorem Len_counts_idle_witness :
    (∀ i, (dialOk i).2 = none) ∧ 2 ≤ 3 ∧
    Len (run (Sys.start (NewMultiConnPool dialOk none (3 : Nat)) Env.start)
          (List.replicate 2 Call.get)).pool = 0 ∧
    (run (Sys.start (NewMultiConnPool dialOk none (3 : Nat)) Env.start)
          (List.replicate 2 Call.get)).pool.cap = (2 : Nat) :=
  ⟨fun _ => rfl, by decide,
   (Len_counts_idle warmPool Env.start dialOk none 3 2 (fun _ => rfl) (by decide)).2.2.2.1,
   (Len_counts_idle warmPool Env.start dialOk none 3 2 (fun _ => rfl) (by decide)).2.2.2.2.1⟩

/-- C15: in every pool state and for every connection `conn`, `Add(conn)`
returns without waiting, puts `conn` on top of the idle stack (the new stack is
the old one followed by `conn`, so `Len` grows by one), leaves the outstanding
count and the capacity limit alone, and invokes neither callback: it locks,
signals and unlocks. -/
theorem Add_effect (p : MultiConnPool) (conn : Option Conn) (e : Env) :
    (Add p conn e).1.conns = p.conns ++ [conn] ∧
    Len (Add p conn e).1 = Len p + 1 ∧
    (Add p conn e).1.cap = p.cap ∧
    (Add p conn e).1.MaxCap = p.MaxCap ∧
    (Add p conn e).2.opens = e.opens ∧
    (Add p conn e).2.events = e.events ++ [Event.lock, Event.signal, Event.unlock] ∧
    Event.openConn ∉ (Add p conn e).2.events.drop e.events.length ∧
    (∀ rw, Event.closeConn rw ∉ (Add p conn e).2.events.drop e.events.length) ∧
    Event.wait ∉ (Add p conn e).2.events.drop e.events.length := by
  rw [Add_eq]
  simp [Len]


/-! ## The scenario with capacity limit two -/

/-- C16: capacity limit 2, an open callback that always succeeds.  On the fresh
pool `Get` returns a newly opened `C1` and the outstanding count is 1; a second
`Get` returns a newly opened `C2` and the count is 2; a third `Get` parks; after
`Add(C1)` that `Get` returns `C1` with `isNewlyOpened = false`; at the end the
outstanding count is 2 and the idle stack is empty. -/
theorem scenario_capacity_two (openConn : OpenConnFunc) (closeConn : Option CloseConnFunc)
    (e : Env) (hok : ∀ k, (openConn k).2 = none) :
    (Get (Sys.start (NewMultiConnPool openConn closeConn 2) e).pool
         (Sys.start (NewMultiConnPool openConn closeConn 2) e).env).ret
      = some { conn := some (NewConn (openConn e.opens).1), isNew := true, err := none } ∧
    (run (Sys.start (NewMultiConnPool openConn closeConn 2) e) [Call.get]).pool.cap = 1 ∧
    (Get (run (Sys.start (NewMultiConnPool openConn closeConn 2) e) [Call.get]).pool
         (run (Sys.start (NewMultiConnPool openConn closeConn 2) e) [Call.get]).env).ret
      = some { conn := some (NewConn (openConn (e.opens + 1)).1), isNew := true, err := none } ∧
    (run (Sys.start (NewMultiConnPool openConn closeConn 2) e)
      [Call.get, Call.get]).pool.cap = 2 ∧
    (Get (run (Sys.start (NewMultiConnPool openConn closeConn 2) e)
            [Call.get, Call.get]).pool
         (run (Sys.start (NewMultiConnPool openConn closeConn 2) e)
            [Call.get, Call.get]).env).ret = none ∧
    (Get (run (Sys.start (NewMultiConnPool openConn closeConn 2) e)
            [Call.get, Call.get, Call.get,
             Call.add (some (NewConn (openConn e.opens).1))]).pool
         (run (Sys.start (NewMultiConnPool openConn closeConn 2) e)
            [Call.get, Call.get, Call.get,
             Call.add (some (NewConn (openConn e.opens).1))]).env).ret
      = some { conn := some (NewConn (openConn e.opens).1), isNew := false, err := none } ∧
    (run (Sys.start (NewMultiConnPool openConn closeConn 2) e)
      [Call.get, Call.get, Call.get, Call.add (some (NewConn (openConn e.opens).1)),
       Call.get]).pool.cap = 2 ∧
    (run (Sys.start (NewMultiConnPool openConn closeConn 2) e)
      [Call.get, Call.get, Call.get, Call.add (some (NewConn (openConn e.opens).1)),
       Call.get]).pool.conns = [] := by
  simp [run, step, Get, Add, Env.emit, NewMultiConnPool, Sys.start, hok]

theorem scenario_capacity_two_witness :
    (∀ k, (dialOk k).2 = none) ∧
    (Get (run (Sys.start (NewMultiConnPool dialOk none 2) Env.start)
            [Call.get, Call.get, Call.get, Call.add (some (NewConn 0))]).pool
         (run (Sys.start (NewMultiConnPool dialOk none 2) Env.start)
            [Call.get, Call.get, Call.get, Call.add (some (NewConn 0))]).env).ret
      = some { conn := some (NewConn 0), isNew := false, err := none } :=
  ⟨fun _ => rfl,
   (scenario_capacity_two dialOk none Env.start (fun _ => rfl)).2.2.2.2.2.1⟩


/-! ## The pool lock and the callbacks -/

theorem Get_new_events (p : MultiConnPool) (e : Env) :
    (Get p e).env.events.drop e.events.length = [Event.lock, Event.wait] ∨
    (Get p e).env.events.drop e.events.length = [Event.lock, Event.openConn, Event.unlock] ∨
    (Get p e).env.events.drop e.events.length = [Event.lock, Event.unlock] := by
  rcases nil_or_snoc p.conns with h1 | ⟨l, c, hl⟩
  · by_cases h2 : p.MaxCap ≤ p.cap
    · left
      rw [Get_parked p e h1 h2]; simp
    · have h2' : p.cap < p.MaxCap := lt_of_not_le h2
      right; left
      by_cases h3 : (p.OpenConn e.opens).2 = none
      · rw [Get_opened p e h1 h2' h3]; simp
      · rw [Get_failed p e h1 h2' h3]; simp
  · right; right
    rw [Get_popped p e l c hl]; simp

theorem Remove_new_events (p : MultiConnPool) (conn : Option Conn) (e : Env) :
    (Remove p conn e).2.events.drop e.events.length = [Event.lock, Event.signal, Event.unlock] ∨
    ∃ c, conn = some c ∧ (Remove p conn e).2.events.drop e.events.length
      = [Event.lock, Event.signal, Event.unlock, Event.closeConn c.RW] := by
  cases conn with
  | none => left; rw [Remove_silent p none e (Or.inl rfl)]; simp
  | some c =>
    cases h : p.CloseConn with
    | none => left; rw [Remove_silent p (some c) e (Or.inr h)]; simp
    | some f => right; exact ⟨c, rfl, by rw [Remove_closing p c f e h]; simp⟩

/-- C17: the code breaks the claim in `Get`.  The first `Get` on a fresh pool
takes the pool lock, invokes the open callback and only then, by the deferred
unlock, releases the lock: the open callback runs with the lock held.  `Remove`
on the same kind of pool does what the claim says: it invokes the close
callback after it has released the lock. -/
theorem Get_opens_under_lock :
    (Get (NewMultiConnPool dialOk (some hangUp) 1) Env.start).env.events.drop
        Env.start.events.length
      = [Event.lock, Event.openConn, Event.unlock] ∧
    ioOutsideLock false
      ((Get (NewMultiConnPool dialOk (some hangUp) 1) Env.start).env.events.drop
        Env.start.events.length) = false ∧
    (Remove (NewMultiConnPool dialOk (some hangUp) 1) (some (NewConn 3)) Env.start).2.events.drop
        Env.start.events.length
      = [Event.lock, Event.signal, Event.unlock, Event.closeConn 3] ∧
    ioOutsideLock false
      ((Remove (NewMultiConnPool dialOk (some hangUp) 1) (some (NewConn 3))
        Env.start).2.events.drop Env.start.events.length) = true := by
  decide

/-! ## Lazy creation -/

/-- C19: `NewMultiConnPool` returns a pool with outstanding count 0, an empty
idle stack (`Len = 0`) and `MaxCap = maxCap`, holding the two callbacks; it has
no access to the environment, so it invokes no callback.  A call raises the
outstanding count (by one) exactly when it is a `Get` that opened a connection
successfully, and lowers it (by one) exactly when it is a `Remove`; every other
call leaves it as it is. -/
theorem lazy_creation (openConn : OpenConnFunc) (closeConn : Option CloseConnFunc)
    (maxCap : Int) (e : Env) (s : Sys) (c : Call) :
    (NewMultiConnPool openConn closeConn maxCap).cap = 0 ∧
    (NewMultiConnPool openConn closeConn maxCap).conns = [] ∧
    Len (NewMultiConnPool openConn closeConn maxCap) = 0 ∧
    (NewMultiConnPool openConn closeConn maxCap).MaxCap = maxCap ∧
    (Sys.start (NewMultiConnPool openConn closeConn maxCap) e).env = e ∧
    ((step s c).pool.cap = s.pool.cap + 1 ∨ (step s c).pool.cap = s.pool.cap - 1 ∨
      (step s c).pool.cap = s.pool.cap) ∧
    ((step s c).pool.cap = s.pool.cap + 1 ↔
      c = Call.get ∧ ∃ conn, (Get s.pool s.env).ret
        = some { conn := some conn, isNew := true, err := none }) ∧
    ((step s c).pool.cap = s.pool.cap - 1 ↔ ∃ conn, c = Call.remove conn) := by
  refine ⟨rfl, rfl, rfl, rfl, rfl, ?_⟩
  cases c with
  | get =>
    rw [step_get_pool]
    rcases Get_cases s.pool s.env with g | g | g | ⟨l, c, g⟩
    · rw [g.2.2.2.1, g.2.2.1]; simp; omega
    · rw [g.2.2.2.2.1, g.2.2.2.1]; simp; omega
    · rw [g.2.2.2.2.1, g.2.2.2.1]; simp; omega
    · rw [g.2.2.1, g.2.1]; simp; omega
  | add conn => rw [step_add_pool]; simp; omega
  | remove conn =>
    rw [step_remove_pool]
    simp
    omega

/-! ## The tracing hook -/

theorem recordError_added (Nil : Error) (span : Span) (err : Error) :
    recordError Nil span err
      = span ++ (if err ≠ Nil then [SpanOp.RecordError err, SpanOp.SetStatus Code.Error err]
                 else []) := by
  unfold recordError
  split <;> simp

theorem AfterProcess_eq (Nil : Error) (span : Span) (cmd : Cmder) :
    AfterProcess Nil span cmd =
      (span ++ ((match cmd.Err with
                 | some err =>
                   if err ≠ Nil then [SpanOp.RecordError err, SpanOp.SetStatus Code.Error err]
                   else []
                 | none => []) ++ [SpanOp.End]), none) := by
  unfold AfterProcess
  cases h : cmd.Err with
  | none => simp
  | some err => simp [recordError_added]

/-- C20: for every command, `AfterProcess` ends the span once and returns no
error, and it records an error on the span, by `RecordError` and by a status
`codes.Error` carrying the message, exactly when the error of the command is
non-nil and differs from the sentinel `redis.Nil`.  For a non-empty list of
commands `AfterProcessPipeline` does what `AfterProcess` does for the first
command, whatever the other commands are. -/
theorem tracing_hook_records (Nil : Error) (span : Span) (cmd : Cmder) (cmds : List Cmder) :
    (AfterProcess Nil span cmd).1 = span ++ added span (AfterProcess Nil span cmd).1 ∧
    (AfterProcess Nil span cmd).2 = none ∧
    (added span (AfterProcess Nil span cmd).1).count SpanOp.End = 1 ∧
    (∀ err, SpanOp.RecordError err ∈ added span (AfterProcess Nil span cmd).1 ↔
      (cmd.Err = some err ∧ err ≠ Nil)) ∧
    (∀ code d, SpanOp.SetStatus code d ∈ added span (AfterProcess Nil span cmd).1 ↔
      (code = Code.Error ∧ cmd.Err = some d ∧ d ≠ Nil)) ∧
    AfterProcessPipeline Nil span (cmd :: cmds) = some (AfterProcess Nil span cmd) := by
  have hp : AfterProcessPipeline Nil span (cmd :: cmds) = some (AfterProcess Nil span cmd) := rfl
  refine ⟨?_, ?_, ?_, ?_, ?_, hp⟩ <;> rw [AfterProcess_eq] <;> simp only [added]
  · simp
  · cases h : cmd.Err with
    | none => simp
    | some err => by_cases h' : err = Nil <;> simp [h']
  · intro err
    cases h : cmd.Err with
    | none => simp
    | some err' =>
      by_cases h' : err' = Nil
      · subst h'
        simp
        intro h2
        exact h2.symm
      · simp [h']
        constructor
        · intro h2; subst h2; exact ⟨rfl, h'⟩
        · intro h2; exact h2.1.symm
  · intro code d
    cases h : cmd.Err with
    | none => simp
    | some err' =>
      by_cases h' : err' = Nil
      · subst h'
        simp
        intro _ h2
        exact h2.symm
      · simp [h']
        intro _
        constructor
        · intro h2; subst h2; exact ⟨rfl, h'⟩
        · intro h2; exact h2.1.symm


/-! ## The accounts under disciplined use -/

theorem Disciplined_cons (s : Sys) (c : Call) (cs : List Call) (h : Disciplined s (c :: cs)) :
    CallOk s c ∧ Disciplined (step s c) cs := by
  cases c with
  | get => exact ⟨trivial, h⟩
  | add conn => exact h
  | remove conn => exact h

theorem run_append (s : Sys) (as bs : List Call) : run s (as ++ bs) = run (run s as) bs := by
  induction as generalizing s with
  | nil => rfl
  | cons a as ih => exact ih (step s a)

theorem Disciplined_append (s : Sys) (as bs : List Call) (h : Disciplined s (as ++ bs)) :
    Disciplined s as ∧ Disciplined (run s as) bs := by
  induction as generalizing s with
  | nil => exact ⟨trivial, h⟩
  | cons a as ih =>
    have h' := Disciplined_cons s a (as ++ bs) h
    have h2 := ih (step s a) h'.2
    refine ⟨?_, h2.2⟩
    cases a with
    | get => exact h2.1
    | add conn => exact ⟨h'.1, h2.1⟩
    | remove conn => exact ⟨h'.1, h2.1⟩

theorem step_add_held (s : Sys) (c : Conn) :
    (step s (Call.add (some c))).held = s.held.erase c := rfl

theorem step_remove_held (s : Sys) (c : Conn) :
    (step s (Call.remove (some c))).held = s.held.erase c := rfl

theorem Balanced_step (s : Sys) (c : Call) (hok : CallOk s c) (h : Balanced s) :
    Balanced (step s c) := by
  obtain ⟨hn, hc⟩ := h
  cases c with
  | get =>
    rcases Get_cases s.pool s.env with g | g | g | ⟨l, c, g⟩
    · unfold Balanced
      rw [step_get_held_parked s g.2.2.1, step_get_pool, g.2.2.2.1]
      exact ⟨hn, hc⟩
    · unfold Balanced
      rw [step_get_held s _ g.2.2.2.1, step_get_pool, g.2.2.2.2.1]
      exact ⟨hn, hc⟩
    · unfold Balanced
      rw [step_get_held s _ g.2.2.2.1, step_get_pool, g.2.2.2.2.1]
      refine ⟨hn, ?_⟩
      show s.pool.cap + 1 = (s.pool.conns.length : Int) + ((_ :: s.held).length : Int)
      simp only [List.length_cons, Nat.cast_add, Nat.cast_one]
      omega
    · have hl := g.1
      rw [hl] at hn hc
      cases c with
      | none => exact absurd (by simp) hn
      | some c0 =>
        unfold Balanced
        rw [step_get_held s _ g.2.1, step_get_pool, g.2.2.1]
        constructor
        · show none ∉ l
          intro hm
          exact hn (List.mem_append_left _ hm)
        · show s.pool.cap = (l.length : Int) + ((c0 :: s.held).length : Int)
          simp only [List.length_append, List.length_cons, List.length_nil, Nat.cast_add,
            Nat.cast_one] at hc ⊢
          omega
  | add conn =>
    obtain ⟨c0, rfl, hmem⟩ := hok
    unfold Balanced
    rw [step_add_held, step_add_pool]
    have hlen := List.length_erase_of_mem hmem
    have hpos : 0 < s.held.length := List.length_pos_of_mem hmem
    constructor
    · show none ∉ s.pool.conns ++ [some c0]
      simp [hn]
    · show s.pool.cap = ((s.pool.conns ++ [some c0]).length : Int) + ((s.held.erase c0).length : Int)
      rw [hlen]
      simp only [List.length_append, List.length_cons, List.length_nil, Nat.cast_add,
        Nat.cast_one]
      omega
  | remove conn =>
    obtain ⟨c0, rfl, hmem⟩ := hok
    unfold Balanced
    rw [step_remove_held, step_remove_pool]
    have hlen := List.length_erase_of_mem hmem
    have hpos : 0 < s.held.length := List.length_pos_of_mem hmem
    constructor
    · exact hn
    · show s.pool.cap - 1 = (s.pool.conns.length : Int) + ((s.held.erase c0).length : Int)
      rw [hlen]
      omega

theorem Balanced_run (s : Sys) (cs : List Call) (h : Balanced s) (hd : Disciplined s cs) :
    Balanced (run s cs) := by
  induction cs generalizing s with
  | nil => exact h
  | cons c cs ih =>
    have h' := Disciplined_cons s c cs hd
    exact ih (step s c) (Balanced_step s c h'.1 h) h'.2

theorem Balanced_start (p : MultiConnPool) (e : Env) (h1 : p.conns = []) (h2 : p.cap = 0) :
    Balanced (Sys.start p e) := by
  constructor
  · show none ∉ p.conns
    rw [h1]; simp
  · show p.cap = (p.conns.length : Int) + (([] : List Conn).length : Int)
    rw [h1, h2]; simp

/-- C12, as stated, fails: `Add` of a connection the pool never opened puts an
entry on the idle stack of a fresh pool while the outstanding count is still 0. -/
theorem idle_exceeds_cap_after_unmatched_Add :
    ¬ (Len (run (Sys.start (NewMultiConnPool dialOk none 1) Env.start)
              [Call.add (some (NewConn 5))]).pool
        ≤ (run (Sys.start (NewMultiConnPool dialOk none 1) Env.start)
              [Call.add (some (NewConn 5))]).pool.cap) := by
  decide

/-- C12, amended: for a pool made by `NewMultiConnPool`, at every point of a
finite sequence of calls in which every `Add(c)` and `Remove(c)` is applied to
a connection that is checked out at that moment, the idle stack has at most as
many entries as the outstanding count. -/
theorem idle_le_cap_when_disciplined (openConn : OpenConnFunc)
    (closeConn : Option CloseConnFunc) (maxCap : Int) (e : Env) (cs : List Call) (n : Nat)
    (hdisc : Disciplined (Sys.start (NewMultiConnPool openConn closeConn maxCap) e) cs) :
    Len (run (Sys.start (NewMultiConnPool openConn closeConn maxCap) e) (cs.take n)).pool
      ≤ (run (Sys.start (NewMultiConnPool openConn closeConn maxCap) e) (cs.take n)).pool.cap := by
  have hb := Balanced_run _ (cs.take n) (Balanced_start _ e rfl rfl) (Disciplined_take _ cs n hdisc)
  have := hb.2
  unfold Len
  omega

theorem idle_le_cap_when_disciplined_witness :
    Disciplined (Sys.start (NewMultiConnPool dialOk none 2) Env.start)
      [Call.get, Call.get, Call.add (some (NewConn 0)), Call.remove (some (NewConn 1))] ∧
    Len (run (Sys.start (NewMultiConnPool dialOk none 2) Env.start)
          ([Call.get, Call.get, Call.add (some (NewConn 0)),
            Call.remove (some (NewConn 1))].take 3)).pool
      ≤ (run (Sys.start (NewMultiConnPool dialOk none 2) Env.start)
          ([Call.get, Call.get, Call.add (some (NewConn 0)),
            Call.remove (some (NewConn 1))].take 3)).pool.cap :=
  ⟨⟨⟨NewConn 0, rfl, by decide⟩, ⟨NewConn 1, rfl, by decide⟩, trivial⟩,
   idle_le_cap_when_disciplined dialOk none 2 Env.start
     [Call.get, Call.get, Call.add (some (NewConn 0)), Call.remove (some (NewConn 1))] 3
     ⟨⟨NewConn 0, rfl, by decide⟩, ⟨NewConn 1, rfl, by decide⟩, trivial⟩⟩

/-- C18: for a pool made by `NewMultiConnPool` with `maxCap >= 0`, at every
point of a finite sequence of calls in which every `Add(c)` and `Remove(c)` is
applied to a connection that is checked out at that moment, the outstanding
count is the size of the idle stack plus the number of connections checked out,
hence `0 <= idle stack size <= outstanding count <= MaxCap`. -/
theorem accounting_identity (openConn : OpenConnFunc) (closeConn : Option CloseConnFunc)
    (maxCap : Int) (e : Env) (cs : List Call) (n : Nat) (hmax : 0 ≤ maxCap)
    (hdisc : Disciplined (Sys.start (NewMultiConnPool openConn closeConn maxCap) e) cs) :
    (run (Sys.start (NewMultiConnPool openConn closeConn maxCap) e) (cs.take n)).pool.cap
      = Len (run (Sys.start (NewMultiConnPool openConn closeConn maxCap) e) (cs.take n)).pool
        + ((run (Sys.start (NewMultiConnPool openConn closeConn maxCap) e)
              (cs.take n)).held.length : Int) ∧
    0 ≤ Len (run (Sys.start (NewMultiConnPool openConn closeConn maxCap) e) (cs.take n)).pool ∧
    Len (run (Sys.start (NewMultiConnPool openConn closeConn maxCap) e) (cs.take n)).pool
      ≤ (run (Sys.start (NewMultiConnPool openConn closeConn maxCap) e) (cs.take n)).pool.cap ∧
    (run (Sys.start (NewMultiConnPool openConn closeConn maxCap) e) (cs.take n)).pool.cap
      ≤ (run (Sys.start (NewMultiConnPool openConn closeConn maxCap) e) (cs.take n)).pool.MaxCap ∧
    (run (Sys.start (NewMultiConnPool openConn closeConn maxCap) e) (cs.take n)).pool.MaxCap
      = maxCap := by
  have hb := Balanced_run _ (cs.take n) (Balanced_start _ e rfl rfl) (Disciplined_take _ cs n hdisc)
  have h2 := hb.2
  have h3 := run_cap_le (Sys.start (NewMultiConnPool openConn closeConn maxCap) e) (cs.take n) hmax
  refine ⟨h2, ?_, ?_, h3, run_MaxCap _ _⟩
  · unfold Len; omega
  · unfold Len; omega

theorem accounting_identity_witness :
    (0 : Int) ≤ 2 ∧
    Disciplined (Sys.start (NewMultiConnPool dialOk none 2) Env.start)
      [Call.get, Call.get, Call.add (some (NewConn 1)), Call.get,
       Call.remove (some (NewConn 0))] ∧
    (run (Sys.start (NewMultiConnPool dialOk none 2) Env.start)
      ([Call.get, Call.get, Call.add (some (NewConn 1)), Call.get,
        Call.remove (some (NewConn 0))].take 3)).pool.cap
      = Len (run (Sys.start (NewMultiConnPool dialOk none 2) Env.start)
          ([Call.get, Call.get, Call.add (some (NewConn 1)), Call.get,
            Call.remove (some (NewConn 0))].take 3)).pool
        + ((run (Sys.start (NewMultiConnPool dialOk none 2) Env.start)
            ([Call.get, Call.get, Call.add (some (NewConn 1)), Call.get,
              Call.remove (some (NewConn 0))].take 3)).held.length : Int) :=
  ⟨by decide,
   ⟨⟨NewConn 1, rfl, by decide⟩, ⟨NewConn 0, rfl, by decide⟩, trivial⟩,
   (accounting_identity dialOk none 2 Env.start
      [Call.get, Call.get, Call.add (some (NewConn 1)), Call.get,
       Call.remove (some (NewConn 0))] 3 (by decide)
      ⟨⟨NewConn 1, rfl, by decide⟩, ⟨NewConn 0, rfl, by decide⟩, trivial⟩).1⟩


/-! ## Retiring a connection -/

theorem step_opens_mono (s : Sys) (c : Call) : s.env.opens ≤ (step s c).env.opens := by
  cases c with
  | get =>
    rw [step_get_env]
    rcases Get_cases s.pool s.env with g | g | g | ⟨l, c, g⟩
    · rw [g.2.2.2.2]
    · rw [g.2.2.2.2.2]; omega
    · rw [g.2.2.2.2.2]; omega
    · rw [g.2.2.2]
  | add conn => rw [step_add_opens]
  | remove conn => rw [step_remove_opens]

theorem run_opens_mono (s : Sys) (cs : List Call) : s.env.opens ≤ (run s cs).env.opens := by
  induction cs generalizing s with
  | nil => exact le_refl _
  | cons c cs ih => exact le_trans (step_opens_mono s c) (ih (step s c))

theorem run_OpenConn (s : Sys) (cs : List Call) :
    (run s cs).pool.OpenConn = s.pool.OpenConn := by
  induction cs generalizing s with
  | nil => rfl
  | cons c cs ih => rw [run, ih, step_OpenConn]

theorem not_idle_step (c : Conn) (s : Sys) (call : Call) (hcall : call ≠ Call.add (some c))
    (h : some c ∉ s.pool.conns) : some c ∉ (step s call).pool.conns := by
  cases call with
  | get =>
    rw [step_get_pool]
    rcases Get_cases s.pool s.env with g | g | g | ⟨l, x, g⟩
    · rw [g.2.2.2.1]; exact h
    · rw [g.2.2.2.2.1]; exact h
    · rw [g.2.2.2.2.1]; exact h
    · rw [g.2.2.1]
      intro hm
      apply h
      rw [g.1]
      exact List.mem_append_left _ hm
  | add conn =>
    rw [step_add_pool]
    intro hm
    rcases List.mem_append.mp hm with h1 | h1
    · exact h h1
    · have : some c = conn := by simpa using h1
      exact hcall (by rw [this])
  | remove conn =>
    rw [step_remove_pool]
    exact h

theorem not_idle_run (c : Conn) (s : Sys) (cs : List Call)
    (hno : Call.add (some c) ∉ cs) (h : some c ∉ s.pool.conns) :
    some c ∉ (run s cs).pool.conns := by
  induction cs generalizing s with
  | nil => exact h
  | cons a cs ih =>
    have h1 : a ≠ Call.add (some c) := fun ha => hno (by rw [ha]; exact List.mem_cons_self _ _)
    have h2 : Call.add (some c) ∉ cs := fun hm => hno (List.mem_cons_of_mem _ hm)
    exact ih (step s a) h2 (not_idle_step c s a h1 h)

theorem Get_not_rebuilt (c : Conn) (p : MultiConnPool) (e : Env) (h : some c ∉ p.conns)
    (hopen : (p.OpenConn e.opens).2 = none → NewConn (p.OpenConn e.opens).1 ≠ c)
    (r : GetResult) (hr : (Get p e).ret = some r) : r.conn ≠ some c := by
  rcases Get_cases p e with g | g | g | ⟨l, x, g⟩
  · rw [g.2.2.1] at hr; cases hr
  · rw [g.2.2.2.1] at hr
    cases hr
    intro hc; cases hc
  · rw [g.2.2.2.1] at hr
    cases hr
    intro hc
    exact hopen g.2.2.1 (Option.some.inj hc)
  · rw [g.2.1] at hr
    cases hr
    intro hc
    apply h
    rw [g.1]
    show some c ∈ l ++ [x]
    rw [← hc]
    simp

/-- C11, as stated, fails: a connection that is idle when `Remove` is called on
it is still on the idle stack afterwards, and the next `Get` returns it. -/
theorem Remove_leaves_idle_connection :
    some (NewConn 0) ∈ (run (Sys.start (NewMultiConnPool dialOk none 1) Env.start)
        [Call.get, Call.add (some (NewConn 0))]).pool.conns ∧
    some (NewConn 0) ∈ (run (Sys.start (NewMultiConnPool dialOk none 1) Env.start)
        [Call.get, Call.add (some (NewConn 0)), Call.remove (some (NewConn 0))]).pool.conns ∧
    (Get (run (Sys.start (NewMultiConnPool dialOk none 1) Env.start)
            [Call.get, Call.add (some (NewConn 0)), Call.remove (some (NewConn 0))]).pool
         (run (Sys.start (NewMultiConnPool dialOk none 1) Env.start)
            [Call.get, Call.add (some (NewConn 0)), Call.remove (some (NewConn 0))]).env).ret
      = some { conn := some (NewConn 0), isNew := false, err := none } := by
  decide

/-- C11, amended: `Remove` never changes the idle stack.  In every pool state
and for every connection `c` that is not on the idle stack when `Remove(c)` is
called: at every later point of a sequence of calls in which `c` is not passed
to `Add` again, `c` is not on the idle stack, and a `Get` issued there does not
return `c`, provided no later successful invocation of the open callback hands
out the handle of `c` again. -/
theorem Remove_retires_when_not_idle (s : Sys) (c : Conn) (cs : List Call) (n : Nat)
    (hidle : some c ∉ s.pool.conns)
    (hnoadd : Call.add (some c) ∉ cs)
    (hopen : ∀ k, s.env.opens ≤ k → (s.pool.OpenConn k).2 = none →
      NewConn (s.pool.OpenConn k).1 ≠ c) :
    (∀ (p : MultiConnPool) (conn : Option Conn) (e : Env), (Remove p conn e).1.conns = p.conns) ∧
    some c ∉ (run s (Call.remove (some c) :: cs.take n)).pool.conns ∧
    (∀ r,
      (Get (run s (Call.remove (some c) :: cs.take n)).pool
           (run s (Call.remove (some c) :: cs.take n)).env).ret = some r →
      r.conn ≠ some c) := by
  refine ⟨fun p conn e => by rw [Remove_pool], ?_⟩
  have hno' : Call.add (some c) ∉ Call.remove (some c) :: cs.take n := by
    intro hm
    rcases List.mem_cons.mp hm with h1 | h1
    · cases h1
    · exact hnoadd (List.mem_of_mem_take h1)
  have hnot := not_idle_run c s _ hno' hidle
  refine ⟨hnot, ?_⟩
  intro r hr
  refine Get_not_rebuilt c _ _ hnot ?_ r hr
  rw [run_OpenConn]
  exact hopen _ (run_opens_mono s _)

theorem Remove_retires_when_not_idle_witness :
    some (NewConn 0) ∉ (run (Sys.start (NewMultiConnPool dialOk none 2) Env.start)
      [Call.get, Call.get]).pool.conns ∧
    Call.add (some (NewConn 0)) ∉ [Call.add (some (NewConn 1)), Call.get, Call.get] ∧
    (∀ k, (run (Sys.start (NewMultiConnPool dialOk none 2) Env.start)
        [Call.get, Call.get]).env.opens ≤ k →
      ((run (Sys.start (NewMultiConnPool dialOk none 2) Env.start)
        [Call.get, Call.get]).pool.OpenConn k).2 = none →
      NewConn ((run (Sys.start (NewMultiConnPool dialOk none 2) Env.start)
        [Call.get, Call.get]).pool.OpenConn k).1 ≠ NewConn 0) ∧
    some (NewConn 0) ∉ (run (run (Sys.start (NewMultiConnPool dialOk none 2) Env.start)
        [Call.get, Call.get])
      (Call.remove (some (NewConn 0))
        :: [Call.add (some (NewConn 1)), Call.get, Call.get].take 3)).pool.conns :=
  ⟨by decide, by decide,
   fun k hk _ heq => by
     have h1 : 2 ≤ k := hk
     have h2 : k = 0 := NewConn_inj k 0 heq
     omega,
   (Remove_retires_when_not_idle
      (run (Sys.start (NewMultiConnPool dialOk none 2) Env.start) [Call.get, Call.get])
      (NewConn 0) [Call.add (some (NewConn 1)), Call.get, Call.get] 3
      (by decide) (by decide)
      (fun k hk _ heq => by
        have h1 : 2 ≤ k := hk
        have h2 : k = 0 := NewConn_inj k 0 heq
        omega)).2.1⟩

end Redis
